import Mathlib

/-!
Verification of the tamil-voice-gateway orchestration layer.

Text is modelled as `List Char`; bytes as `List Nat`. Python string
operations are embedded as executable Lean functions over `List Char`:
`str.strip()` is `trimWs`, `str.lower()` is `lowerStr` (ASCII case-fold,
as in the CPython fast path for the ASCII patterns used by the code),
`needle in hay` is `containsStr`. External network calls are abstracted
into explicit outcome parameters (`Except`-valued arguments or oracle
functions); all control flow around them is translated from the source.
-/

set_option maxRecDepth 20000

namespace TamilVoiceGateway

/-- Python `str.lower` on the characters this code base compares (ASCII). -/
def lowerStr (l : List Char) : List Char := l.map Char.toLower

/-- `listStarts n h` : `n` is an initial run of `h` (Python `str.startswith`). -/
def listStarts : List Char → List Char → Bool
  | [], _ => true
  | _ :: _, [] => false
  | a :: n, b :: h => a == b && listStarts n h

/-- Python substring containment `n in h`. -/
def containsStr (n : List Char) : List Char → Bool
  | [] => listStarts n []
  | b :: h => listStarts n (b :: h) || containsStr n h

/-- Strip characters satisfying `p` from both ends (Python `str.strip(chars)`). -/
def stripWhile (p : Char → Bool) (l : List Char) : List Char :=
  ((l.dropWhile p).reverse.dropWhile p).reverse

/-- Python `str.strip()` with no argument: strip whitespace from both ends. -/
def trimWs (l : List Char) : List Char := stripWhile Char.isWhitespace l

/-- Python `'\n'`-split: `text.split('\n')` (an empty text yields one empty line). -/
def splitNl : List Char → List (List Char)
  | [] => [[]]
  | c :: cs =>
    if c == '\n' then [] :: splitNl cs
    else (c :: (splitNl cs).headI) :: (splitNl cs).tail

/-- Python `' '.join(...)`. -/
def joinSpace (ls : List (List Char)) : List Char := List.intercalate [' '] ls

/-! ## C7: audio chunk concatenation (`ElevenLabsTTSAdapter._concatenate_audio_chunks`) -/

/-- `_concatenate_audio_chunks`: empty list -> empty bytes; a single chunk is
returned unmodified; otherwise the byte buffers are joined in order. -/
def concatenateAudioChunks : List (List Nat) → List Nat
  | [] => []
  | [c] => c
  | chunks => chunks.flatten

theorem concatenateAudioChunks_eq_flatten :
    ∀ chunks : List (List Nat), concatenateAudioChunks chunks = chunks.flatten
  | [] => rfl
  | [c] => by simp [concatenateAudioChunks]
  | _ :: _ :: _ => rfl

/-! ## C1: conversation history evolution (`GeminiLLMAdapter.chat` history updates) -/

inductive Role where
  | user
  | assistant
deriving DecidableEq

structure Msg where
  role : Role
  content : List Char
deriving DecidableEq

/-- `if len(h) > 20: h = h[-20:]` — keep the most recent 20 entries. -/
def trunc20 (h : List Msg) : List Msg :=
  if 20 < h.length then h.drop (h.length - 20) else h

/-- History effect of one completed normal turn of `GeminiLLMAdapter.chat`
(lines 47–54 and 105–108): append the user entry, truncate to the last 20,
then append the agent entry. -/
def normalTurnHistory (hist : List Msg) (u a : List Char) : List Msg :=
  trunc20 (hist ++ [⟨Role.user, u⟩]) ++ [⟨Role.assistant, a⟩]

/-- History after a sequence of completed normal turns, starting empty. -/
def runTurns (ps : List (List Char × List Char)) : List Msg :=
  ps.foldl (fun h p => normalTurnHistory h p.1 p.2) []

/-- `reset_conversation`: the history is replaced by the empty list. -/
def resetConversation : List Msg := []

/-- The untruncated history of the same turns. -/
def fullHistory (ps : List (List Char × List Char)) : List Msg :=
  ps.foldl (fun h p => h ++ [⟨Role.user, p.1⟩, ⟨Role.assistant, p.2⟩]) []

/-- Length transition of one normal turn. -/
def lenStep (m : Nat) : Nat := if 20 ≤ m then 21 else m + 2

theorem normalTurnHistory_length (hist : List Msg) (u a : List Char) :
    (normalTurnHistory hist u a).length = lenStep hist.length := by
  unfold normalTurnHistory trunc20 lenStep
  by_cases h : 20 ≤ hist.length
  · have h' : 20 < (hist ++ [(⟨Role.user, u⟩ : Msg)]).length := by
      simp; omega
    simp only [if_pos h', if_pos h]
    simp
    omega
  · have h' : ¬ 20 < (hist ++ [(⟨Role.user, u⟩ : Msg)]).length := by
      simp; omega
    simp only [if_neg h', if_neg h]
    simp

theorem runTurns_go_length (ps : List (List Char × List Char)) :
    ∀ h : List Msg,
      (ps.foldl (fun h p => normalTurnHistory h p.1 p.2) h).length = lenStep^[ps.length] h.length := by
  induction ps with
  | nil => intro h; rfl
  | cons p ps ih =>
    intro h
    simp only [List.foldl_cons, List.length_cons]
    rw [ih, normalTurnHistory_length, ← Function.iterate_succ_apply]

theorem lenStep_iterate_zero (k : Nat) :
    lenStep^[k] 0 = if k ≤ 10 then 2 * k else 21 := by
  induction k with
  | zero => rfl
  | succ k ih =>
    rw [Function.iterate_succ_apply', ih]
    unfold lenStep
    split_ifs <;> omega

theorem runTurns_length (ps : List (List Char × List Char)) :
    (runTurns ps).length = if ps.length ≤ 10 then 2 * ps.length else 21 := by
  unfold runTurns
  rw [runTurns_go_length ps []]
  simpa using lenStep_iterate_zero ps.length

theorem suffix_append_same {α : Type} {s t : List α} (r : List α) (h : s <:+ t) :
    s ++ r <:+ t ++ r := by
  obtain ⟨w, rfl⟩ := h
  exact ⟨w, (List.append_assoc w s r).symm⟩

theorem trunc20_suffix (l : List Msg) : trunc20 l <:+ l := by
  unfold trunc20
  split
  · exact List.drop_suffix _ _
  · exact List.suffix_refl l

theorem normalTurnHistory_suffix (h : List Msg) (u a : List Char) :
    normalTurnHistory h u a <:+ h ++ [⟨Role.user, u⟩, ⟨Role.assistant, a⟩] := by
  have h1 : normalTurnHistory h u a <:+ (h ++ [⟨Role.user, u⟩]) ++ [⟨Role.assistant, a⟩] :=
    suffix_append_same _ (trunc20_suffix _)
  simpa using h1

theorem runTurns_go_suffix (ps : List (List Char × List Char)) :
    ∀ h g : List Msg, h <:+ g →
      (ps.foldl (fun h p => normalTurnHistory h p.1 p.2) h) <:+
        (ps.foldl (fun h p => h ++ [⟨Role.user, p.1⟩, ⟨Role.assistant, p.2⟩]) g) := by
  induction ps with
  | nil => intro h g hs; simpa using hs
  | cons p ps ih =>
    intro h g hs
    simp only [List.foldl_cons]
    apply ih
    obtain ⟨v, rfl⟩ := hs
    have h2 : h ++ [(⟨Role.user, p.1⟩ : Msg), ⟨Role.assistant, p.2⟩] <:+
        (v ++ h) ++ [⟨Role.user, p.1⟩, ⟨Role.assistant, p.2⟩] := by
      refine ⟨v, ?_⟩
      simp
    exact (normalTurnHistory_suffix h p.1 p.2).trans h2

/-- Claim C1 (amended): after `N` completed normal turns the history length is
`2N` while `2N ≤ 20`; once the window is exceeded, each completed turn ends
with 21 entries (odd), because the truncation to 20 happens after the user
append but before the agent append. The retained history is always a suffix
of the untruncated history (most recent entries, order preserved), and the
history is empty immediately after a reset. -/
theorem conversation_history_length_amended (ps : List (List Char × List Char)) :
    (runTurns ps).length = (if ps.length ≤ 10 then 2 * ps.length else 21)
    ∧ runTurns ps <:+ fullHistory ps
    ∧ resetConversation = ([] : List Msg) := by
  refine ⟨runTurns_length ps, ?_, rfl⟩
  exact runTurns_go_suffix ps [] [] List.nil_suffix

/-- Counterexample to claim C1 as stated: after 11 completed normal turns the
history has 21 entries — not `2 · 11 = 22`, not within the 20-entry window,
and odd. -/
theorem conversation_history_claim_counterexample :
    (runTurns (List.replicate 11 ("u".data, "a".data))).length = 21
    ∧ (runTurns (List.replicate 11 ("u".data, "a".data))).length ≠ 22
    ∧ ¬ (runTurns (List.replicate 11 ("u".data, "a".data))).length ≤ 20
    ∧ ¬ Even (runTurns (List.replicate 11 ("u".data, "a".data))).length := by
  have h : (runTurns (List.replicate 11 ("u".data, "a".data))).length = 21 := by
    rw [runTurns_length]; simp
  refine ⟨h, by omega, by omega, ?_⟩
  rw [h]
  decide

/-! ## C2: STT provider fallback (`vaanga_pesalam_endpoint`, lines 117–143) -/

structure SttRes where
  text : List Char
  confidence : ℚ
  detectedLanguage : List Char
  provider : List Char
deriving DecidableEq

def exceptDecEq {ε α : Type} [DecidableEq ε] [DecidableEq α] : DecidableEq (Except ε α) :=
  fun x y =>
  match x, y with
  | .ok a, .ok b =>
    if h : a = b then .isTrue (by rw [h]) else .isFalse (by intro hc; cases hc; exact h rfl)
  | .error a, .error b =>
    if h : a = b then .isTrue (by rw [h]) else .isFalse (by intro hc; cases hc; exact h rfl)
  | .ok _, .error _ => .isFalse (by intro hc; cases hc)
  | .error _, .ok _ => .isFalse (by intro hc; cases hc)

instance {ε α : Type} [DecidableEq ε] [DecidableEq α] : DecidableEq (Except ε α) :=
  exceptDecEq

/-- The endpoint's STT step: try the selected provider's adapter; on failure,
fall back to Google unless Google was the selected provider. Outcomes of the
two adapter calls are passed in as parameters. Returns the result paired with
the provider that actually serviced the call, or the raised error detail. -/
def sttTranscribeStep (name : List Char)
    (preferredOutcome googleOutcome : Except (List Char) SttRes) :
    Except (List Char) (SttRes × List Char) :=
  if name = "google".data then
    match googleOutcome with
    | .ok r => .ok (r, name)
    | .error e => .error ("STT transcription failed: ".data ++ e)
  else
    match preferredOutcome with
    | .ok r => .ok (r, name)
    | .error _ =>
      match googleOutcome with
      | .ok r => .ok (r, "google".data)
      | .error ge => .error ("All STT providers failed: ".data ++ ge)

/-- Claim C2 (amended): with a non-Google preferred provider, a preferred
failure with a Google success yields the fallback's result and reports
`google` as the actual provider; if both fail the call ends in a terminal
error whose detail is `All STT providers failed: <google cause>` — it carries
only the fallback's cause (the preferred provider's cause is only logged). -/
theorem stt_fallback_amended (name pc gc : List Char) (r : SttRes)
    (h : name ≠ "google".data) :
    sttTranscribeStep name (.ok r) (.error gc) = .ok (r, name)
    ∧ sttTranscribeStep name (.error pc) (.ok r) = .ok (r, "google".data)
    ∧ sttTranscribeStep name (.error pc) (.error gc)
        = .error ("All STT providers failed: ".data ++ gc) := by
  unfold sttTranscribeStep
  rw [if_neg h, if_neg h, if_neg h]
  exact ⟨rfl, rfl, rfl⟩

theorem stt_fallback_amended_witness :
    ("sarvam".data ≠ "google".data)
    ∧ sttTranscribeStep "sarvam".data (.error "p".data) (.error "g".data)
        = .error ("All STT providers failed: ".data ++ "g".data) :=
  ⟨by decide, (stt_fallback_amended "sarvam".data "p".data "g".data
      ⟨[], 0, [], []⟩ (by decide)).2.2⟩

/-- Counterexample to claim C2 as stated: when both providers fail, the raised
detail is `All STT providers failed: google boom` — it does not contain the
preferred provider's cause (`sarvam boom`), nor the preferred provider's name. -/
theorem stt_fallback_claim_counterexample :
    sttTranscribeStep "sarvam".data (.error "sarvam boom".data) (.error "google boom".data)
      = .error ("All STT providers failed: google boom".data)
    ∧ containsStr "sarvam boom".data ("All STT providers failed: google boom".data) = false
    ∧ containsStr "sarvam".data ("All STT providers failed: google boom".data) = false := by
  refine ⟨?_, by decide, by decide⟩
  decide

/-! ## Output sanitizer (`GeminiLLMAdapter._clean_llm_output`) -/

/-- The regex fragments used by the cleanup patterns: literal text, an
optional single character (`s?`, `\.?`), `\s*`, and a lazy `.*?`. -/
inductive Tok where
  | lit (w : List Char)
  | optChar (c : Char)
  | wsStar
  | dotStarLazy
deriving DecidableEq

/-- Case-insensitive `listStarts`: the pattern side is stored lowercase. -/
def ciStarts : List Char → List Char → Bool
  | [], _ => true
  | _ :: _, [] => false
  | a :: n, b :: h => a == Char.toLower b && ciStarts n h

/-- Match a token sequence at the head of the input, Python-`re` style:
optional characters are greedy with backtracking, `\s*` is greedy (every
pattern follows it with a non-whitespace literal, so maximal munch is exact),
and `.*?` is lazy and does not cross a newline. Returns the input remaining
after the match. Structural on a fuel argument so that it evaluates in the
kernel; every recursive call strictly decreases `ts.length + s.length`, so
the fuel chosen in `matchToks` below is never exhausted. -/
def matchToksF : Nat → List Tok → List Char → Option (List Char)
  | 0, _, _ => none
  | _ + 1, [], s => some s
  | fuel + 1, .lit w :: ts, s =>
    if ciStarts w s then matchToksF fuel ts (s.drop w.length) else none
  | fuel + 1, .optChar _ :: ts, [] => matchToksF fuel ts []
  | fuel + 1, .optChar c :: ts, b :: s' =>
    if Char.toLower b == c then
      match matchToksF fuel ts s' with
      | some r => some r
      | none => matchToksF fuel ts (b :: s')
    else matchToksF fuel ts (b :: s')
  | fuel + 1, .wsStar :: ts, s => matchToksF fuel ts (s.dropWhile Char.isWhitespace)
  | fuel + 1, .dotStarLazy :: ts, s =>
    match matchToksF fuel ts s with
    | some r => some r
    | none =>
      match s with
      | [] => none
      | b :: s' => if b == '\n' then none else matchToksF fuel (.dotStarLazy :: ts) s'

def matchToks (ts : List Tok) (s : List Char) : Option (List Char) :=
  matchToksF (ts.length + s.length + 1) ts s

/-- `re.sub(pattern, "", s)`: delete every non-overlapping leftmost match.
Each step consumes at least one input character, so `s.length` fuel suffices. -/
def subAuxF : Nat → List Tok → List Char → List Char
  | _, _, [] => []
  | 0, _, s => s
  | fuel + 1, pat, c :: cs =>
    match matchToks pat (c :: cs) with
    | some rest =>
      if rest.length < (c :: cs).length then subAuxF fuel pat rest
      else c :: subAuxF fuel pat cs
    | none => c :: subAuxF fuel pat cs

def subAux (pat : List Tok) (s : List Char) : List Char := subAuxF s.length pat s

/-- The `cleanup_patterns` list of `_clean_llm_output`, in source order. -/
def cleanupPatterns : List (List Tok) :=
  [ [.lit "you are".data, .dotStarLazy, .lit "doctor".data, .dotStarLazy, .lit "patient".data],
    [.lit "respond".data, .dotStarLazy, .lit "like".data, .dotStarLazy, .lit "doctor".data],
    [.lit "use tamil".data, .dotStarLazy, .lit "english".data],
    [.lit "example".data, .optChar 's', .lit ":".data],
    [.lit "patient:".data],
    [.lit "you:".data],
    [.lit "dr".data, .optChar '.', .wsStar, .lit "tamil:".data],
    [.lit "assistant:".data],
    [.lit "respond only with".data],
    [.lit "output only".data],
    [.lit "translation:".data],
    [.lit "tamil translation:".data],
    [.lit "here".data, .dotStarLazy, .lit "translation".data],
    [.lit "the translation is".data] ]

/-- Apply all cleanup patterns in order (each `re.sub` with empty replacement). -/
def regexSub (s : List Char) : List Char :=
  cleanupPatterns.foldl (fun acc p => subAux p acc) s

/-- The `instruction_indicators` list. -/
def instructionIndicators : List (List Char) :=
  [ "respond".data, "use tamil".data, "use english".data, "examples".data,
    "guidelines".data, "style".data, "avoid".data, "personality".data,
    "role".data, "conversation".data, "language mixing".data ]

/-- The `startswith` tuple of formatting markers. -/
def bulletStarts : List (List Char) :=
  [ "*".data, "-".data, "•".data, "1.".data, "2.".data, "3.".data ]

/-- A (stripped) line is skipped when it contains an instruction indicator or
starts with a formatting marker. -/
def skipLine (l : List Char) : Bool :=
  instructionIndicators.any (fun ind => containsStr ind (lowerStr l)) ||
  bulletStarts.any (fun b => listStarts b l)

/-- The line-filter loop: strip each line, drop empty lines and skipped lines. -/
def filterLines (ls : List (List Char)) : List (List Char) :=
  (ls.map trimWs).filter (fun part => !part.isEmpty && !skipLine part)

/-- Characters removed by the final `strip(":- \"'\n\t ")`. -/
def isStripChar (c : Char) : Bool :=
  c == ':' || c == '-' || c == ' ' || c == '"' || c == '\'' || c == '\n' || c == '\t'

/-- `_clean_llm_output` before its final strip: run the pattern substitutions,
filter the lines, join the survivors with single spaces — falling back to the
original text when every line was filtered out. -/
def sanitizeCore (text : List Char) : List Char :=
  let cleanLines := filterLines (splitNl (regexSub text))
  if cleanLines.isEmpty then text else joinSpace cleanLines

/-- `_clean_llm_output`. -/
def cleanLlmOutput (text : List Char) : List Char :=
  stripWhile isStripChar (sanitizeCore text)

theorem filterLines_mem_ne_nil {p : List Char} {ls : List (List Char)}
    (h : p ∈ filterLines ls) : p ≠ [] := by
  unfold filterLines at h
  have := List.of_mem_filter h
  simp only [Bool.and_eq_true, Bool.not_eq_true'] at this
  intro hp
  rw [hp] at this
  simp [List.isEmpty] at this

theorem joinSpace_singleton (l : List Char) : joinSpace [l] = l := by
  simp [joinSpace, List.intercalate]

theorem joinSpace_cons_cons (p q : List Char) (qs : List (List Char)) :
    joinSpace (p :: q :: qs) = p ++ ' ' :: joinSpace (q :: qs) := rfl

theorem joinSpace_cons_ne_nil {p : List Char} {ps : List (List Char)} (h : p ≠ []) :
    joinSpace (p :: ps) ≠ [] := by
  cases ps with
  | nil => rw [joinSpace_singleton]; exact h
  | cons q qs =>
    rw [joinSpace_cons_cons]
    cases p with
    | nil => exact absurd rfl h
    | cons a p' => simp

/-- Claim C4 (amended): for a non-empty input the sanitizer's result before the
final `strip(":- \"'\n\t ")` is non-empty, and when line filtering removes
every line the pre-strip result is exactly the original unfiltered text. The
final strip can still empty the result when everything left consists of the
stripped punctuation/quote/whitespace characters (see the counterexample). -/
theorem sanitize_nonempty_amended (x : List Char) (h : x ≠ []) :
    sanitizeCore x ≠ []
    ∧ (filterLines (splitNl (regexSub x)) = [] → sanitizeCore x = x) := by
  constructor
  · unfold sanitizeCore
    cases hc : filterLines (splitNl (regexSub x)) with
    | nil => simpa using h
    | cons p ps =>
      simp only [List.isEmpty_cons, if_neg]
      exact joinSpace_cons_ne_nil (filterLines_mem_ne_nil (hc ▸ List.mem_cons_self p ps))
  · intro hc
    unfold sanitizeCore
    rw [hc]
    rfl

theorem sanitize_nonempty_amended_witness :
    "hello".data ≠ [] ∧ sanitizeCore "hello".data ≠ [] :=
  ⟨by decide, (sanitize_nonempty_amended "hello".data (by decide)).1⟩

/-- Counterexample to claim C4 as stated: the input `":"` is non-empty, the
line filter keeps it, but the final strip of punctuation characters empties
the sanitizer's output. -/
theorem sanitize_nonempty_claim_counterexample :
    ":".data ≠ ([] : List Char) ∧ cleanLlmOutput ":".data = [] :=
  ⟨by decide, by decide⟩

/-! ## C9: idempotence of the sanitizer -/

theorem length_dropWhile_le {α : Type} (p : α → Bool) (l : List α) :
    (l.dropWhile p).length ≤ l.length := by
  induction l with
  | nil => exact Nat.le_refl 0
  | cons a l ih =>
    by_cases h : p a
    · rw [List.dropWhile_cons_of_pos h]
      exact Nat.le_succ_of_le ih
    · rw [List.dropWhile_cons_of_neg h]

theorem dropWhile_idem {α : Type} (p : α → Bool) (l : List α) :
    (l.dropWhile p).dropWhile p = l.dropWhile p := by
  induction l with
  | nil => rfl
  | cons a l ih =>
    by_cases h : p a
    · rw [List.dropWhile_cons_of_pos h, ih]
    · rw [List.dropWhile_cons_of_neg h, List.dropWhile_cons_of_neg h]

theorem dropWhile_eq_self_of_prefix {α : Type} {p : α → Bool} {t l : List α}
    (hp : t <+: l) (hl : l.dropWhile p = l) : t.dropWhile p = t := by
  cases t with
  | nil => rfl
  | cons a t' =>
    obtain ⟨r, rfl⟩ := hp
    have ha : ¬ p a := by
      intro hpa
      have h1 := hl
      rw [List.cons_append, List.dropWhile_cons_of_pos hpa] at h1
      have h2 := congrArg List.length h1
      rw [List.length_cons] at h2
      have h3 := length_dropWhile_le p (t' ++ r)
      omega
    rw [List.dropWhile_cons_of_neg ha]

theorem stripWhile_dropWhile (p : Char → Bool) (l : List Char) :
    (stripWhile p l).dropWhile p = stripWhile p l := by
  unfold stripWhile
  refine dropWhile_eq_self_of_prefix ?_ (dropWhile_idem p l)
  have h := List.reverse_prefix.mpr
    (@List.dropWhile_suffix Char ((l.dropWhile p).reverse) p)
  simpa using h

theorem stripWhile_idem (p : Char → Bool) (l : List Char) :
    stripWhile p (stripWhile p l) = stripWhile p l := by
  have h1 := stripWhile_dropWhile p l
  generalize hx : stripWhile p l = x at h1 ⊢
  show ((x.dropWhile p).reverse.dropWhile p).reverse = x
  rw [h1]
  have h2 : x.reverse.dropWhile p = x.reverse := by
    rw [← hx]
    show (((l.dropWhile p).reverse.dropWhile p).reverse).reverse.dropWhile p = _
    rw [List.reverse_reverse, dropWhile_idem, ← List.reverse_reverse
      ((List.dropWhile p (List.dropWhile p l).reverse))]
    rfl
  rw [h2, List.reverse_reverse]

theorem splitNl_of_no_newline {l : List Char} (h : '\n' ∉ l) : splitNl l = [l] := by
  induction l with
  | nil => rfl
  | cons c cs ih =>
    have hc : ¬ (c == '\n') = true := by
      simp only [beq_iff_eq]
      intro hh
      exact h (hh ▸ List.mem_cons_self c cs)
    have hcs : '\n' ∉ cs := fun hm => h (List.mem_cons_of_mem c hm)
    unfold splitNl
    rw [if_neg hc, ih hcs]
    rfl

/-- Fixed-point lemma: a text left unchanged by the pattern pass, free of
newlines, and already whitespace- and punctuation-stripped is a fixed point
of the sanitizer. -/
theorem cleanLlmOutput_fixed {y : List Char} (hreg : regexSub y = y)
    (hnl : '\n' ∉ y) (htrim : trimWs y = y) (hstrip : stripWhile isStripChar y = y) :
    cleanLlmOutput y = y := by
  unfold cleanLlmOutput sanitizeCore
  rw [hreg, splitNl_of_no_newline hnl]
  unfold filterLines
  simp only [List.map_cons, List.map_nil, htrim, List.filter_cons, List.filter_nil]
  by_cases hk : (!y.isEmpty && !skipLine y) = true
  · simp only [hk, if_true]
    simp only [List.isEmpty_cons, Bool.false_eq_true, if_false]
    rw [joinSpace_singleton, hstrip]
  · simp only [Bool.not_eq_true] at hk
    simp only [hk, Bool.false_eq_true, if_false, List.isEmpty_nil, if_true]
    exact hstrip

/-- Claim C9 (amended): `sanitize` is idempotent on every input whose
sanitized output is left unchanged by the instruction-pattern pass and is a
single line (no embedded newline, already whitespace-trimmed). In general a
second application can differ, because deleting a pattern match can splice
the remaining text into a fresh pattern match (see the counterexample). -/
theorem sanitize_idempotent_amended (x : List Char)
    (hreg : regexSub (cleanLlmOutput x) = cleanLlmOutput x)
    (hnl : '\n' ∉ cleanLlmOutput x)
    (htrim : trimWs (cleanLlmOutput x) = cleanLlmOutput x) :
    cleanLlmOutput (cleanLlmOutput x) = cleanLlmOutput x :=
  cleanLlmOutput_fixed hreg hnl htrim (stripWhile_idem isStripChar (sanitizeCore x))

theorem sanitize_idempotent_amended_witness :
    regexSub (cleanLlmOutput "hello".data) = cleanLlmOutput "hello".data
    ∧ cleanLlmOutput (cleanLlmOutput "hello".data) = cleanLlmOutput "hello".data :=
  ⟨by decide, sanitize_idempotent_amended "hello".data (by decide) (by decide) (by decide)⟩

set_option maxHeartbeats 2000000 in
/-- Counterexample to claim C9 as stated: on the two-line reply
`"here is\nthe translation thing"` the first sanitization joins the lines,
creating a fresh `here.*?translation` match, so the second pass removes more:
`sanitize(x) = "here is the translation thing"` but
`sanitize(sanitize(x)) = "thing"`. -/
theorem sanitize_idempotent_counterexample :
    cleanLlmOutput "here is\nthe translation thing".data
      = "here is the translation thing".data
    ∧ cleanLlmOutput (cleanLlmOutput "here is\nthe translation thing".data) = "thing".data
    ∧ cleanLlmOutput (cleanLlmOutput "here is\nthe translation thing".data)
        ≠ cleanLlmOutput "here is\nthe translation thing".data := by
  refine ⟨by decide, by decide, ?_⟩
  intro h
  rw [show cleanLlmOutput "here is\nthe translation thing".data
      = "here is the translation thing".data from by decide] at h
  rw [show cleanLlmOutput "here is the translation thing".data = "thing".data from by decide] at h
  exact absurd h (by decide)

/-! ## Question limiter (`GeminiLLMAdapter._limit_questions`) -/

/-- The sentence separators of `re.split(r'([.!।])', text)`. -/
def isSepC (c : Char) : Bool := c == '.' || c == '!' || c == '।'

def sepChars3 : List Char := ['.', '!', '।']

/-- `re.split(r'([.!।])', text)` with a capturing group: pieces and the
single-character separators interleaved. -/
def splitKeepSeps : List Char → List (List Char)
  | [] => [[]]
  | c :: cs =>
    if isSepC c then [] :: [c] :: splitKeepSeps cs
    else (c :: (splitKeepSeps cs).headI) :: (splitKeepSeps cs).tail

/-- The part-selection loop of `_limit_questions`: strip each part, skip empty
parts, keep at most two question-bearing parts, keep every other part; a kept
statement part also consumes and keeps the following raw element when that
element is a substring of `".!।"` (Python's `parts[i+1] in '.!।'`). -/
def keptParts : List (List Char) → Nat → List (List Char)
  | [], _ => []
  | [p], q =>
    let part := trimWs p
    if part.isEmpty then []
    else if part.contains '?' then (if q < 2 then [part] else [])
    else [part]
  | p :: next :: rest2, q =>
    let part := trimWs p
    if part.isEmpty then keptParts (next :: rest2) q
    else if part.contains '?' then
      if q < 2 then part :: keptParts (next :: rest2) (q + 1)
      else keptParts (next :: rest2) q
    else
      if containsStr next sepChars3 then part :: next :: keptParts rest2 q
      else part :: keptParts (next :: rest2) q

/-- `re.sub(r'\s+', ' ', s)`: collapse each maximal whitespace run to one
space. The Boolean records whether the previous character was whitespace. -/
def collapseAux : Bool → List Char → List Char
  | _, [] => []
  | prevWs, c :: cs =>
    if c.isWhitespace then
      if prevWs then collapseAux true cs else ' ' :: collapseAux true cs
    else c :: collapseAux false cs

def collapseWs (l : List Char) : List Char := collapseAux false l

/-- `re.sub(r'\s*([.!।])\s*', r'\1 ', s)` as a left-to-right scan: buffered
whitespace (`pend`) is dropped when a separator follows (it belongs to the
leading `\s*` of a match) and flushed otherwise; after a separator the
trailing `\s*` run is consumed and a single space emitted. -/
def fixSepAux : List Char → Bool → List Char → List Char
  | pend, _, [] => pend
  | pend, afterSep, c :: cs =>
    if isSepC c then c :: ' ' :: fixSepAux [] true cs
    else if c.isWhitespace then
      if afterSep then fixSepAux pend true cs
      else fixSepAux (pend ++ [c]) false cs
    else pend ++ c :: fixSepAux [] false cs

def fixSepSpacing (l : List Char) : List Char := fixSepAux [] false l

/-- `_limit_questions`. -/
def limitQuestions (text : List Char) : List Char :=
  trimWs (fixSepSpacing (collapseWs ((keptParts (splitKeepSeps text) 0).flatten)))

example : limitQuestions "one? two. three? four. five? six.".data
    = "one? two. three? four. .".data := by decide

example : limitQuestions "A? B. C?".data = "A? B. C?".data := by decide

/-! ## Dialogue turn (`GeminiLLMAdapter.chat` and `vaanga_pesalam_endpoint`) -/

/-- Keyword lists of the summarization signal scan in `chat`. -/
def durationKeywords : List (List Char) :=
  [ "day".data, "week".data, "month".data, "நாள".data, "வாரம்".data,
    "மாசம்".data, "yesterday".data, "நேத்து".data ]

def severityKeywords : List (List Char) :=
  [ "pain".data, "severe".data, "mild".data, "வலி".data, "அதிகம்".data, "கம்மி".data ]

def locationKeywords : List (List Char) :=
  [ "leg".data, "head".data, "chest".data, "கால்".data, "தலை".data,
    "மார்பு".data, "stomach".data, "வயிறு".data ]

def hasDuration (total : List Char) : Bool :=
  durationKeywords.any (fun w => containsStr w total)

def hasSeverity (total : List Char) : Bool :=
  severityKeywords.any (fun w => containsStr w total) || total.any Char.isDigit

def hasLocation (total : List Char) : Bool :=
  locationKeywords.any (fun w => containsStr w total)

/-- `" ".join(patient_responses).lower()`: the case-folded concatenation of
the user entries of a history. -/
def patientConcat (hist : List Msg) : List Char :=
  lowerStr (joinSpace (hist.filterMap
    (fun m => if m.role = Role.user then some m.content else none)))

def signalsAll (total : List Char) : Bool :=
  hasDuration total && hasSeverity total && hasLocation total

/-- The fixed closure message returned instead of a fresh agent reply. -/
def closureMessage : List Char :=
  "உங்க symptoms பத்தி நான் senior doctor-கிட்ட சொல்லி வைக்கறேன். அவங்க உங்களை பார்த்து proper treatment கொடுப்பாங்க. கவலைப்படாதீங்க, நாங்க உங்களுக்கு help பண்றோம். எல்லாம் சரியாகும்.".data

/-- The language-dependent apology returned when the model call fails. -/
def fallbackMessage (lang : List Char) : List Char :=
  if lang = "ta".data || containsStr "tamil".data (lowerStr lang) then
    "மன்னிக்கவும், எனக்கு இப்போது பதில் சொல்ல முடியவில்லை. மீண்டும் முயற்சி செய்யுங்கள்.".data
  else
    "Sorry, I'm having trouble responding right now. Please try again.".data

structure ChatOut where
  reply : List Char
  hist : List Msg
  closed : Bool
deriving DecidableEq

/-- `GeminiLLMAdapter.chat`. The external model call is an oracle `llm` from
the (updated, truncated) history and the user message to an optional reply
text — `none` or an empty reply stands for `generate_content` failing or
returning no text, in which case the exception handler produces the
language-dependent fallback without touching the already-updated history.
(The constant system-prompt prefix of the rendered conversation text feeds
only the external model and is absorbed into the oracle.) The `closed` flag
records that the fixed closure message was substituted for a model call; the
`generate_doctor_summary` result is logged by the source and discarded. -/
def gemChat (llm : List Msg → List Char → Option (List Char)) (lang : List Char)
    (hist : List Msg) (u : List Char) (shouldSummarize : Bool) : ChatOut :=
  let h2 := trunc20 (hist ++ [⟨Role.user, u⟩])
  if shouldSummarize && decide (6 ≤ h2.length) && signalsAll (patientConcat h2) then
    ⟨closureMessage, h2, true⟩
  else
    match llm h2 u with
    | some t =>
      if t.isEmpty then ⟨fallbackMessage lang, h2, false⟩
      else
        let r := limitQuestions (cleanLlmOutput (trimWs t))
        ⟨r, h2 ++ [⟨Role.assistant, r⟩], false⟩
    | none => ⟨fallbackMessage lang, h2, false⟩

/-- `should_summarize = conversation_stats["message_count"] >= 6`, computed by
the endpoint from the session history before the turn. -/
def vaangaShouldSummarize (hist : List Msg) : Bool := decide (6 ≤ hist.length)

/-- The `closed` flag equals the closure condition of `chat`. -/
theorem gemChat_closed_iff (llm : List Msg → List Char → Option (List Char))
    (lang : List Char) (hist : List Msg) (u : List Char) (ss : Bool) :
    (gemChat llm lang hist u ss).closed
      = (ss && decide (6 ≤ (trunc20 (hist ++ [⟨Role.user, u⟩])).length)
          && signalsAll (patientConcat (trunc20 (hist ++ [⟨Role.user, u⟩])))) := by
  simp only [gemChat]
  by_cases hc : (ss && decide (6 ≤ (trunc20 (hist ++ [⟨Role.user, u⟩])).length)
      && signalsAll (patientConcat (trunc20 (hist ++ [⟨Role.user, u⟩])))) = true
  · rw [if_pos hc, hc]
  · have hc' : (ss && decide (6 ≤ (trunc20 (hist ++ [⟨Role.user, u⟩])).length)
        && signalsAll (patientConcat (trunc20 (hist ++ [⟨Role.user, u⟩])))) = false := by
      revert hc
      cases ss && decide (6 ≤ (trunc20 (hist ++ [⟨Role.user, u⟩])).length)
        && signalsAll (patientConcat (trunc20 (hist ++ [⟨Role.user, u⟩]))) <;> simp
    rw [if_neg hc, hc']
    cases llm (trunc20 (hist ++ [⟨Role.user, u⟩])) u with
    | some t => by_cases ht : t.isEmpty = true <;> simp [ht]
    | none => rfl

theorem gemChat_normal_hist (llm : List Msg → List Char → Option (List Char))
    (lang : List Char) (hist : List Msg) (u t : List Char) (ss : Bool)
    (hcl : (gemChat llm lang hist u ss).closed = false)
    (ht : llm (trunc20 (hist ++ [⟨Role.user, u⟩])) u = some t)
    (hne : t.isEmpty = false) :
    (gemChat llm lang hist u ss).hist
      = normalTurnHistory hist u (limitQuestions (cleanLlmOutput (trimWs t))) := by
  rw [gemChat_closed_iff] at hcl
  simp only [gemChat, hcl, Bool.false_eq_true, if_false, ht, hne]
  rfl

theorem trunc20_length (h : List Msg) : (trunc20 h).length = min h.length 20 := by
  unfold trunc20
  split
  · simp; omega
  · simp; omega

/-- Claim C3 (amended): the closure substitution happens exactly when the
endpoint's `should_summarize` flag is set — which requires at least 6 history
entries before the turn, i.e. at least 3 completed prior exchanges, so the
current user turn is at least the 4th — and the duration/severity/location
signal scan succeeds on the concatenated (truncated) user messages. A session
whose current turn is only its 3rd user turn gets a normal agent reply even
when all three signals are present. -/
theorem closure_trigger_amended (ps : List (List Char × List Char)) (u : List Char)
    (llm : List Msg → List Char → Option (List Char)) (lang : List Char) :
    (gemChat llm lang (runTurns ps) u (vaangaShouldSummarize (runTurns ps))).closed
      = (decide (3 ≤ ps.length)
          && signalsAll (patientConcat (trunc20 (runTurns ps ++ [⟨Role.user, u⟩])))) := by
  have hL := runTurns_length ps
  have hT := trunc20_length (runTurns ps ++ [⟨Role.user, u⟩])
  rw [List.length_append, hL] at hT
  simp only [List.length_cons, List.length_nil] at hT
  rw [gemChat_closed_iff]
  unfold vaangaShouldSummarize
  by_cases h3 : 3 ≤ ps.length
  · have hb0 : decide (6 ≤ (runTurns ps).length) = true := by
      rw [hL]; split_ifs with hc <;> simp <;> omega
    have hb2 : decide (6 ≤ (trunc20 (runTurns ps ++ [⟨Role.user, u⟩])).length) = true := by
      rw [hT]
      split_ifs at hT ⊢ with hc <;> simp <;> omega
    have hb3 : decide (3 ≤ ps.length) = true := by simpa using h3
    rw [hb0, hb2, hb3]
    simp
  · have hb0 : decide (6 ≤ (runTurns ps).length) = false := by
      rw [hL]; split_ifs with hc <;> simp <;> omega
    have hb3 : decide (3 ≤ ps.length) = false := by simpa using h3
    rw [hb0, hb3]
    simp

/-- Counterexample to claim C3 as stated: a session on its 3rd user turn whose
concatenated user messages contain a duration keyword (`yesterday`), a
severity keyword (`pain`) and a location keyword (`leg`) — by the claim it
should receive the closure message, but the code produces a normal reply
(`closed = false`), because `message_count` is only 4 before the turn. -/
theorem closure_trigger_claim_counterexample :
    (gemChat (fun _ _ => some "ok".data) "ta".data
        [⟨Role.user, "leg pain".data⟩, ⟨Role.assistant, "ok".data⟩,
         ⟨Role.user, "since yesterday".data⟩, ⟨Role.assistant, "ok".data⟩]
        "severe pain".data
        (vaangaShouldSummarize
          [⟨Role.user, "leg pain".data⟩, ⟨Role.assistant, "ok".data⟩,
           ⟨Role.user, "since yesterday".data⟩, ⟨Role.assistant, "ok".data⟩])).closed = false
    ∧ signalsAll (patientConcat (trunc20
        ([⟨Role.user, "leg pain".data⟩, ⟨Role.assistant, "ok".data⟩,
          ⟨Role.user, "since yesterday".data⟩, ⟨Role.assistant, "ok".data⟩]
          ++ [⟨Role.user, "severe pain".data⟩]))) = true := by
  constructor
  · decide
  · decide

/-! ## C5: translation failure behaviour (`GoogleTranslateAdapter`) -/

structure GTranslationResult where
  text : List Char
  sourceLanguage : List Char
  targetLanguage : List Char
  confidence : ℚ
  provider : List Char
deriving DecidableEq

def validTargetLanguages : List (List Char) :=
  [ "ta".data, "en".data, "hi".data, "bn".data, "gu".data, "kn".data,
    "ml".data, "mr".data, "or".data, "pa".data, "te".data ]

/-- `GoogleTranslateAdapter.translate`. The network call (together with the
colloquial-prompt preparation and post-processing applied around it) is
abstracted into `netOutcome`, which yields the final translated text. An
invalid target raises `ValueError` inside the `try`, and every failure is
re-raised wrapped as `Google translation failed: ...` — the method does not
degrade to returning the input. -/
def googleTranslate (netOutcome : Except (List Char) (List Char))
    (text target src : List Char) : Except (List Char) GTranslationResult :=
  if validTargetLanguages.contains target then
    match netOutcome with
    | .ok t => .ok ⟨t, src, target, 1, "google".data⟩
    | .error e => .error ("Google translation failed: ".data ++ e)
  else
    .error ("Google translation failed: Unsupported target language: ".data ++ target)

/-- `GoogleTranslateAdapter.translate_to_english`. The inner detection branch
always degrades (`detection_result.language` is an attribute access on a
`str`, so it raises and the `except` sets the source to `None`); an explicit
source of `en` short-circuits; any failure of the translation call is caught
and the original text is returned. -/
def translateToEnglish (netOutcome : Except (List Char) (List Char))
    (text : List Char) (src : Option (List Char)) : List Char :=
  if src = some "en".data then text
  else
    match netOutcome with
    | .ok t => t
    | .error _ => text

/-- Claim C5 (amended): `translate_to_english` degrades to returning the
original text on any provider failure, but the general `translate` method —
the one used for the response-direction translation in the conversational
turn — wraps and re-raises the failure instead of returning the original
text; only the to-English path never raises. -/
theorem translation_failure_amended (e text src tgt : List Char) :
    translateToEnglish (.error e) text (some src) = text
    ∧ translateToEnglish (.error e) text none = text
    ∧ googleTranslate (.error e) text tgt src
        = .error ("Google translation failed: ".data
            ++ (if validTargetLanguages.contains tgt then e
                else "Unsupported target language: ".data ++ tgt)) := by
  refine ⟨?_, rfl, ?_⟩
  · unfold translateToEnglish
    split <;> rfl
  · unfold googleTranslate
    by_cases h : validTargetLanguages.contains tgt = true
    · rw [if_pos h, if_pos h]
    · rw [if_neg h, if_neg h]
      simp

/-- Counterexample to claim C5 as stated: a provider failure in `translate`
(response-direction translation, valid target `ta`) produces a raised error,
not the original text. -/
theorem translation_failure_claim_counterexample :
    googleTranslate (.error "boom".data) "hello".data "ta".data "en".data
      = .error ("Google translation failed: boom".data)
    ∧ ∀ r : GTranslationResult,
        googleTranslate (.error "boom".data) "hello".data "ta".data "en".data ≠ .ok r := by
  constructor
  · decide
  · intro r h
    have : Except.error ("Google translation failed: boom".data)
        = (Except.ok r : Except (List Char) GTranslationResult) := by
      rw [← h]
      decide
    exact absurd this (by intro hc; cases hc)

/-! ## C8: short audio yields empty transcript and terminates the turn -/

/-- `GoogleSTTAdapter.transcribe`: audio shorter than 10 bytes short-circuits
with an empty transcript, confidence `0.0` and the requested language (or
`en` when unset); otherwise the outcome of the recognition call is returned,
with transport failures re-raised wrapped. -/
def googleSttTranscribe (audio : List Nat) (lang : List Char)
    (netResult : Except (List Char) SttRes) : Except (List Char) SttRes :=
  if audio.length < 10 then
    .ok ⟨[], 0, (if lang.isEmpty then "en".data else lang), "google".data⟩
  else
    match netResult with
    | .ok r => .ok r
    | .error e => .error ("Google speech-to-text failed: ".data ++ e)

structure TurnResult where
  userTranscript : List Char
  aiResponse : List Char
  ttsText : List Char
  history : List Msg
deriving DecidableEq

/-- The conversational turn of `vaanga_pesalam_endpoint` up to speech
synthesis, with Google as STT provider: transcribe, reject when the stripped
transcript is empty, otherwise run the dialogue agent and — when the user
spoke Tamil but the reply came out in English (script-range heuristic) —
translate the reply back to Tamil for TTS. -/
def vaangaPipeline (llm : List Msg → List Char → Option (List Char))
    (audio : List Nat) (sttNet : Except (List Char) SttRes)
    (trNet : Except (List Char) (List Char)) (hist : List Msg) :
    Except (List Char) TurnResult :=
  match googleSttTranscribe audio "auto".data sttNet with
  | .error e => .error ("STT transcription failed: ".data ++ e)
  | .ok stt =>
    let transcript := trimWs stt.text
    if transcript.isEmpty then .error "No speech detected in audio".data
    else
      let out := gemChat llm stt.detectedLanguage hist transcript
        (vaangaShouldSummarize hist)
      let aiLang := if out.reply.any (fun c => decide (2944 < c.toNat) && decide (c.toNat < 3071))
        then "ta".data else "en".data
      if stt.detectedLanguage = "ta".data ∧ aiLang = "en".data then
        match googleTranslate trNet out.reply "ta".data "en".data with
        | .ok tr => .ok ⟨transcript, out.reply, tr.text, out.hist⟩
        | .error e => .error e
      else .ok ⟨transcript, out.reply, out.reply, out.hist⟩

/-- Claim C8 (confirmed): audio shorter than 10 bytes yields an STT result
with empty text and confidence `0.0`, and the turn then terminates with the
`No speech detected in audio` error — for every dialogue-agent oracle and
every translation outcome, so neither is consulted. -/
theorem short_audio_no_speech (audio : List Nat)
    (llm : List Msg → List Char → Option (List Char))
    (sttNet : Except (List Char) SttRes) (trNet : Except (List Char) (List Char))
    (hist : List Msg) (h : audio.length < 10) :
    googleSttTranscribe audio "auto".data sttNet
      = .ok ⟨[], 0, "auto".data, "google".data⟩
    ∧ vaangaPipeline llm audio sttNet trNet hist
        = .error "No speech detected in audio".data := by
  have hstt : googleSttTranscribe audio "auto".data sttNet
      = .ok ⟨[], 0, "auto".data, "google".data⟩ := by
    unfold googleSttTranscribe
    rw [if_pos h]
    rfl
  refine ⟨hstt, ?_⟩
  unfold vaangaPipeline
  rw [hstt]
  rfl

theorem short_audio_no_speech_witness :
    ([1, 2, 3] : List Nat).length < 10
    ∧ vaangaPipeline (fun _ _ => none) [1, 2, 3] (.error []) (.error []) []
        = .error "No speech detected in audio".data :=
  ⟨by decide,
    (short_audio_no_speech [1, 2, 3] (fun _ _ => none) (.error []) (.error []) []
      (by decide)).2⟩

/-! ## C6: long-text chunking (`ElevenLabsTTSAdapter._split_text_into_chunks`) -/

/-- Terminators of the sentence split `re.split(r'[.!?]+\s+', text)`. -/
def isTermC (c : Char) : Bool := c == '.' || c == '!' || c == '?'

/-- Scanner state for the sentence split: inside a piece, inside a run of
terminators (buffered in reverse), or inside the whitespace of a match. -/
inductive SentMode where
  | normal
  | seenTerms (buf : List Char)
  | skipWs

/-- `re.split(r'[.!?]+\s+', text)`: a terminator run followed by whitespace
separates pieces (both are dropped); a terminator run not followed by
whitespace stays inside the piece. `acc` holds the current piece reversed. -/
def sentAux (mode : SentMode) (acc : List Char) : List Char → List (List Char)
  | [] =>
    match mode with
    | .normal => [acc.reverse]
    | .seenTerms buf => [(buf ++ acc).reverse]
    | .skipWs => [acc.reverse]
  | c :: cs =>
    match mode with
    | .normal =>
      if isTermC c then sentAux (.seenTerms [c]) acc cs
      else sentAux .normal (c :: acc) cs
    | .seenTerms buf =>
      if isTermC c then sentAux (.seenTerms (c :: buf)) acc cs
      else if c.isWhitespace then acc.reverse :: sentAux .skipWs [] cs
      else sentAux .normal (c :: buf ++ acc) cs
    | .skipWs =>
      if c.isWhitespace then sentAux .skipWs acc cs
      else if isTermC c then sentAux (.seenTerms [c]) acc cs
      else sentAux .normal (c :: acc) cs

def reSplitSentences (text : List Char) : List (List Char) := sentAux .normal [] text

/-- The first assembly loop of `_split_text_into_chunks`: pack sentences into
chunks, starting a new chunk when the (unjoined) lengths would exceed the
limit, re-joining accumulated sentences with `". "`. -/
def chunkLoop (maxCS : Nat) (current : List Char) : List (List Char) → List (List Char)
  | [] => if current.isEmpty then [] else [trimWs current]
  | s :: rest =>
    if decide (maxCS < current.length + s.length) && !current.isEmpty then
      trimWs current :: chunkLoop maxCS s rest
    else
      chunkLoop maxCS (if current.isEmpty then s else current ++ '.' :: ' ' :: s) rest

/-- Python `str.split()`: whitespace-separated words, empties dropped.
`cur` holds the current word reversed. -/
def wordsAux (cur : List Char) : List Char → List (List Char)
  | [] => if cur.isEmpty then [] else [cur.reverse]
  | c :: cs =>
    if c.isWhitespace then
      if cur.isEmpty then wordsAux [] cs else cur.reverse :: wordsAux [] cs
    else wordsAux (c :: cur) cs

def splitWsWords (l : List Char) : List (List Char) := wordsAux [] l

/-- The second loop of `_split_text_into_chunks`: re-split an over-long chunk
on word boundaries, joining words with single spaces. -/
def wordLoop (maxCS : Nat) (cwc : List Char) : List (List Char) → List (List Char)
  | [] => if cwc.isEmpty then [] else [trimWs cwc]
  | w :: rest =>
    if decide (maxCS < cwc.length + w.length + 1) && !cwc.isEmpty then
      trimWs cwc :: wordLoop maxCS w rest
    else
      wordLoop maxCS (if cwc.isEmpty then w else cwc ++ ' ' :: w) rest

/-- `_split_text_into_chunks`. -/
def splitTextIntoChunks (text : List Char) (maxCS : Nat) : List (List Char) :=
  let sentences := reSplitSentences text
  let chunks := chunkLoop maxCS [] sentences
  (chunks.map (fun chunk =>
    if chunk.length ≤ maxCS then [chunk]
    else wordLoop maxCS [] (splitWsWords chunk))).flatten

example : splitTextIntoChunks "One two. Three four! Five six".data 12
    = ["One two".data, "Three four".data, "Five six".data] := by decide

example : splitTextIntoChunks "abcdefgh ij".data 5 = ["abcdefgh".data, "ij".data] := by decide

theorem length_stripWhile_le (p : Char → Bool) (l : List Char) :
    (stripWhile p l).length ≤ l.length := by
  unfold stripWhile
  calc ((l.dropWhile p).reverse.dropWhile p).reverse.length
      = ((l.dropWhile p).reverse.dropWhile p).length := List.length_reverse _
    _ ≤ (l.dropWhile p).reverse.length := length_dropWhile_le _ _
    _ = (l.dropWhile p).length := List.length_reverse _
    _ ≤ l.length := length_dropWhile_le _ _

theorem mem_stripWhile_subset {p : Char → Bool} {c : Char} {l : List Char}
    (h : c ∈ stripWhile p l) : c ∈ l := by
  unfold stripWhile at h
  rw [List.mem_reverse] at h
  have h2 := (List.dropWhile_suffix p).sublist.subset h
  rw [List.mem_reverse] at h2
  exact (List.dropWhile_suffix p).sublist.subset h2

theorem all_stripWhile {p q : Char → Bool} {l : List Char}
    (h : l.all q = true) : (stripWhile p l).all q = true := by
  rw [List.all_eq_true] at h ⊢
  exact fun c hc => h c (mem_stripWhile_subset hc)

theorem wordsAux_all_nonWs (l : List Char) :
    ∀ cur : List Char, cur.all (fun ch => !ch.isWhitespace) = true →
      ∀ w ∈ wordsAux cur l, w.all (fun ch => !ch.isWhitespace) = true := by
  induction l with
  | nil =>
    intro cur hcur w hw
    unfold wordsAux at hw
    split at hw
    · cases hw
    · rw [List.mem_singleton] at hw
      subst hw
      simpa using hcur
  | cons c cs ih =>
    intro cur hcur w hw
    unfold wordsAux at hw
    by_cases hws : c.isWhitespace
    · rw [if_pos hws] at hw
      by_cases hc : cur.isEmpty
      · rw [if_pos hc] at hw
        exact ih [] (by decide) w hw
      · rw [if_neg hc] at hw
        rcases List.mem_cons.mp hw with he | hm
        · subst he; simpa using hcur
        · exact ih [] (by decide) w hm
    · rw [if_neg hws] at hw
      refine ih (c :: cur) ?_ w hw
      simp only [List.all_cons, hcur, Bool.and_true]
      simpa using hws

theorem wordLoop_bound (maxCS : Nat) (ws : List (List Char)) :
    ∀ cwc : List Char,
      (cwc.length ≤ maxCS ∨ cwc.all (fun ch => !ch.isWhitespace) = true) →
      (∀ w ∈ ws, w.all (fun ch => !ch.isWhitespace) = true) →
      ∀ c ∈ wordLoop maxCS cwc ws,
        c.length ≤ maxCS ∨ c.all (fun ch => !ch.isWhitespace) = true := by
  induction ws with
  | nil =>
    intro cwc hc _ c hm
    unfold wordLoop at hm
    split at hm
    · cases hm
    · rw [List.mem_singleton] at hm
      subst hm
      rcases hc with h | h
      · exact Or.inl (le_trans (length_stripWhile_le _ _) h)
      · exact Or.inr (all_stripWhile h)
  | cons w rest ih =>
    intro cwc hc hws c hm
    unfold wordLoop at hm
    have hw : w.all (fun ch => !ch.isWhitespace) = true := hws w (List.mem_cons_self w rest)
    have hrest : ∀ x ∈ rest, x.all (fun ch => !ch.isWhitespace) = true :=
      fun x hx => hws x (List.mem_cons_of_mem w hx)
    by_cases hcond : (decide (maxCS < cwc.length + w.length + 1) && !cwc.isEmpty) = true
    · rw [if_pos hcond] at hm
      rcases List.mem_cons.mp hm with he | hm'
      · subst he
        rcases hc with h | h
        · exact Or.inl (le_trans (length_stripWhile_le _ _) h)
        · exact Or.inr (all_stripWhile h)
      · exact ih w (Or.inr hw) hrest c hm'
    · rw [if_neg hcond] at hm
      by_cases he : cwc.isEmpty
      · rw [if_pos he] at hm
        exact ih w (Or.inr hw) hrest c hm
      · rw [if_neg he] at hm
        refine ih (cwc ++ ' ' :: w) (Or.inl ?_) hrest c hm
        have h1 : decide (maxCS < cwc.length + w.length + 1) = false := by
          revert hcond
          cases hdec : decide (maxCS < cwc.length + w.length + 1)
          · intro _; rfl
          · intro hcond
            exfalso
            apply hcond
            simp only [Bool.true_and, Bool.not_eq_true']
            simpa [List.isEmpty_iff] using he
        have h2 : ¬ maxCS < cwc.length + w.length + 1 := by simpa using h1
        simp only [List.length_append, List.length_cons]
        omega

/-- Claim C6 (amended): every chunk produced by `_split_text_into_chunks`
either fits in `max_chunk_size` or contains no whitespace at all (an unbroken
run longer than the limit cannot be split at a word boundary and is emitted
over-long, so the claimed universal `≤ max_chunk_size` bound fails, and a
6000-character input need not produce 3–4 chunks). -/
theorem chunking_bound_amended (text : List Char) (maxCS : Nat) (c : List Char)
    (hm : c ∈ splitTextIntoChunks text maxCS) :
    c.length ≤ maxCS ∨ c.all (fun ch => !ch.isWhitespace) = true := by
  unfold splitTextIntoChunks at hm
  rw [List.mem_flatten] at hm
  obtain ⟨l, hl, hcl⟩ := hm
  rw [List.mem_map] at hl
  obtain ⟨chunk, _, rfl⟩ := hl
  by_cases hs : chunk.length ≤ maxCS
  · rw [if_pos hs] at hcl
    rw [List.mem_singleton] at hcl
    subst hcl
    exact Or.inl hs
  · rw [if_neg hs] at hcl
    exact wordLoop_bound maxCS (splitWsWords chunk) [] (Or.inl (Nat.zero_le _))
      (wordsAux_all_nonWs chunk [] (by decide)) c hcl

theorem chunking_bound_amended_witness :
    "hello".data ∈ splitTextIntoChunks "hello".data 2000
    ∧ ("hello".data.length ≤ 2000
        ∨ "hello".data.all (fun ch => !ch.isWhitespace) = true) :=
  ⟨by decide, chunking_bound_amended "hello".data 2000 "hello".data (by decide)⟩

theorem dropWhile_of_all_neg {p : Char → Bool} {l : List Char}
    (h : l.all (fun c => !p c) = true) : l.dropWhile p = l := by
  cases l with
  | nil => rfl
  | cons c cs =>
    rw [List.all_cons, Bool.and_eq_true] at h
    exact List.dropWhile_cons_of_neg (by simpa using h.1)

theorem stripWhile_of_all_neg {p : Char → Bool} {l : List Char}
    (h : l.all (fun c => !p c) = true) : stripWhile p l = l := by
  have hrev : l.reverse.all (fun c => !p c) = true := by
    rw [List.all_eq_true] at h ⊢
    exact fun c hc => h c (List.mem_reverse.mp hc)
  unfold stripWhile
  rw [dropWhile_of_all_neg h, dropWhile_of_all_neg hrev, List.reverse_reverse]

theorem sentAux_of_no_terms (l : List Char) :
    ∀ acc : List Char, (∀ c ∈ l, isTermC c = false) →
      sentAux SentMode.normal acc l = [acc.reverse ++ l] := by
  induction l with
  | nil => intro acc _; simp [sentAux]
  | cons c cs ih =>
    intro acc h
    have hc : isTermC c = false := h c (List.mem_cons_self c cs)
    unfold sentAux
    rw [hc]
    simp only [Bool.false_eq_true, if_false]
    rw [ih (c :: acc) (fun x hx => h x (List.mem_cons_of_mem c hx))]
    simp

theorem wordsAux_of_no_ws (l : List Char) :
    ∀ cur : List Char, (∀ c ∈ l, c.isWhitespace = false) →
      wordsAux cur l = if (cur.reverse ++ l).isEmpty then [] else [cur.reverse ++ l] := by
  induction l with
  | nil =>
    intro cur _
    unfold wordsAux
    by_cases hc : cur.isEmpty
    · rw [if_pos hc, if_pos]
      simp only [List.append_nil, List.isEmpty_iff, List.reverse_eq_nil_iff]
      exact List.isEmpty_iff.mp hc
    · rw [if_neg hc, if_neg]
      · simp
      · simp only [List.append_nil, List.isEmpty_iff, List.reverse_eq_nil_iff]
        exact fun hn => hc (by simp [hn])
  | cons c cs ih =>
    intro cur h
    have hc : c.isWhitespace = false := h c (List.mem_cons_self c cs)
    unfold wordsAux
    rw [hc]
    simp only [Bool.false_eq_true, if_false]
    rw [ih (c :: cur) (fun x hx => h x (List.mem_cons_of_mem c hx))]
    simp

theorem chunkLoop_nil_cons (maxCS : Nat) (s : List Char) (rest : List (List Char)) :
    chunkLoop maxCS [] (s :: rest) = chunkLoop maxCS s rest := by
  show (if decide (maxCS < ([] : List Char).length + s.length) && !([] : List Char).isEmpty
      then trimWs [] :: chunkLoop maxCS s rest
      else chunkLoop maxCS (if ([] : List Char).isEmpty then s else [] ++ '.' :: ' ' :: s) rest)
    = chunkLoop maxCS s rest
  simp

theorem chunkLoop_last (maxCS : Nat) (cur : List Char) :
    chunkLoop maxCS cur [] = if cur.isEmpty then [] else [trimWs cur] := rfl

theorem wordLoop_nil_cons (maxCS : Nat) (w : List Char) (rest : List (List Char)) :
    wordLoop maxCS [] (w :: rest) = wordLoop maxCS w rest := by
  show (if decide (maxCS < ([] : List Char).length + w.length + 1) && !([] : List Char).isEmpty
      then trimWs [] :: wordLoop maxCS w rest
      else wordLoop maxCS (if ([] : List Char).isEmpty then w else [] ++ ' ' :: w) rest)
    = wordLoop maxCS w rest
  simp

theorem wordLoop_last (maxCS : Nat) (cwc : List Char) :
    wordLoop maxCS cwc [] = if cwc.isEmpty then [] else [trimWs cwc] := rfl

/-- An unbroken text — no sentence terminator, no whitespace — survives both
splitting phases as one chunk, whatever the chunk-size limit. -/
theorem splitTextIntoChunks_unbroken (text : List Char) (maxCS : Nat)
    (hne : text ≠ [])
    (h : ∀ c ∈ text, isTermC c = false ∧ c.isWhitespace = false) :
    splitTextIntoChunks text maxCS = [text] := by
  have hterm : ∀ c ∈ text, isTermC c = false := fun c hc => (h c hc).1
  have hws : ∀ c ∈ text, c.isWhitespace = false := fun c hc => (h c hc).2
  have hall : text.all (fun c => !c.isWhitespace) = true := by
    rw [List.all_eq_true]
    exact fun c hc => by simp [hws c hc]
  have hnemp : text.isEmpty = false := by
    cases text with
    | nil => exact absurd rfl hne
    | cons a l => rfl
  have htrim : trimWs text = text := stripWhile_of_all_neg hall
  unfold splitTextIntoChunks reSplitSentences
  rw [sentAux_of_no_terms text [] hterm]
  simp only [List.reverse_nil, List.nil_append]
  rw [chunkLoop_nil_cons, chunkLoop_last, hnemp]
  simp only [Bool.false_eq_true, if_false, htrim, List.map_cons, List.map_nil]
  by_cases hlen : text.length ≤ maxCS
  · simp [hlen]
  · rw [if_neg hlen]
    unfold splitWsWords
    rw [wordsAux_of_no_ws text [] hws]
    simp only [List.reverse_nil, List.nil_append, hnemp, Bool.false_eq_true, if_false]
    rw [wordLoop_nil_cons, wordLoop_last, hnemp]
    simp only [Bool.false_eq_true, if_false, htrim]
    simp

/-- Counterexample to claim C6 as stated: 6000 characters with no sentence
terminator and no whitespace come back as a single chunk of length 6000 —
neither "each chunk ≤ 2000" nor "exactly 3–4 chunks" holds. -/
theorem chunking_claim_counterexample :
    splitTextIntoChunks (List.replicate 6000 'a') 2000 = [List.replicate 6000 'a']
    ∧ ¬ (List.replicate 6000 'a').length ≤ 2000
    ∧ (splitTextIntoChunks (List.replicate 6000 'a') 2000).length = 1 := by
  have h1 : splitTextIntoChunks (List.replicate 6000 'a') 2000
      = [List.replicate 6000 'a'] := by
    refine splitTextIntoChunks_unbroken _ 2000 ?_ ?_
    · have := List.length_replicate 6000 'a'
      intro hc
      rw [hc] at this
      simp at this
    · intro c hc
      rw [List.eq_of_mem_replicate hc]
      exact ⟨by decide, by decide⟩
  refine ⟨h1, ?_, by rw [h1]; rfl⟩
  rw [List.length_replicate]
  omega

/-- `_synthesize_long_text` with the chunk size it passes (2000), over a stub
synthesizer: synthesize each chunk and concatenate the audio in order. -/
def synthesizeLongAudio (synth : List Char → List Nat) (text : List Char) : List Nat :=
  concatenateAudioChunks ((splitTextIntoChunks text 2000).map synth)

/-- Claim C7 (confirmed): audio concatenation is length-preserving — the
combined length is the sum of the chunk lengths, the empty list gives empty
audio, a singleton is returned unmodified — and consequently the long-text
pipeline's audio length is the sum of the per-chunk synthesized lengths. -/
theorem audio_concatenation_length (chunks : List (List Nat)) (c : List Nat)
    (synth : List Char → List Nat) (text : List Char) :
    (concatenateAudioChunks chunks).length = (chunks.map List.length).sum
    ∧ concatenateAudioChunks [] = []
    ∧ concatenateAudioChunks [c] = c
    ∧ (synthesizeLongAudio synth text).length
        = ((splitTextIntoChunks text 2000).map (fun ch => (synth ch).length)).sum := by
  have h1 : ∀ cs : List (List Nat),
      (concatenateAudioChunks cs).length = (cs.map List.length).sum := by
    intro cs
    rw [concatenateAudioChunks_eq_flatten]
    exact List.length_flatten cs
  refine ⟨h1 chunks, rfl, rfl, ?_⟩
  unfold synthesizeLongAudio
  rw [h1, List.map_map]
  rfl

/-! ## C10: the question limiter keeps at most two question segments -/

/-- Sentence segments of a text: split on `'.'`, `'!'`, `'।'` (separators
dropped) — the claim's notion of segment. -/
def splitSegs : List Char → List (List Char)
  | [] => [[]]
  | c :: cs =>
    if isSepC c then [] :: splitSegs cs
    else (c :: (splitSegs cs).headI) :: (splitSegs cs).tail

/-- Number of sentence segments that contain a question mark. -/
def countQSegs (l : List Char) : Nat :=
  List.countP (fun seg => seg.contains '?') (splitSegs l)

/-- Scan-based count of question segments; the Boolean state records whether
the current segment already contributed. -/
def qscan : Bool → List Char → Nat
  | _, [] => 0
  | b, c :: cs =>
    if isSepC c then qscan false cs
    else if c == '?' then (if b then qscan true cs else 1 + qscan true cs)
    else qscan b cs

/-- The state after scanning a list. -/
def qstate : Bool → List Char → Bool
  | b, [] => b
  | b, c :: cs =>
    if isSepC c then qstate false cs
    else if c == '?' then qstate true cs
    else qstate b cs

/-- Characters the question-segment count depends on. -/
def isQS (c : Char) : Bool := isSepC c || c == '?'

theorem splitSegs_ne_nil (l : List Char) : splitSegs l ≠ [] := by
  cases l with
  | nil => simp [splitSegs]
  | cons c cs =>
    unfold splitSegs
    split
    · simp
    · simp

theorem qscan_cons (b : Bool) (c : Char) (cs : List Char) :
    qscan b (c :: cs)
      = if isSepC c = true then qscan false cs
        else if (c == '?') = true then
          (if b = true then qscan true cs else 1 + qscan true cs)
        else qscan b cs := rfl

theorem qstate_cons (b : Bool) (c : Char) (cs : List Char) :
    qstate b (c :: cs)
      = if isSepC c = true then qstate false cs
        else if (c == '?') = true then qstate true cs
        else qstate b cs := rfl

theorem qscan_splitSegs (l : List Char) :
    qscan false l = List.countP (fun seg => seg.contains '?') (splitSegs l)
    ∧ qscan true l = List.countP (fun seg => seg.contains '?') ((splitSegs l).tail) := by
  induction l with
  | nil => exact ⟨rfl, rfl⟩
  | cons c cs ih =>
    obtain ⟨ih1, ih2⟩ := ih
    obtain ⟨h, t, hS⟩ := List.exists_cons_of_ne_nil (splitSegs_ne_nil cs)
    rw [hS] at ih1 ih2
    simp only [List.tail_cons] at ih2
    by_cases hsep : isSepC c = true
    · have hsplit : splitSegs (c :: cs) = [] :: h :: t := by
        unfold splitSegs
        rw [if_pos hsep, hS]
      rw [qscan_cons, qscan_cons, if_pos hsep, if_pos hsep, hsplit, ih1]
      constructor
      · simp [List.countP_cons]
      · simp
    · have hsplit : splitSegs (c :: cs) = (c :: h) :: t := by
        unfold splitSegs
        rw [if_neg hsep, hS]
        rfl
      rw [qscan_cons, qscan_cons, if_neg hsep, if_neg hsep, hsplit]
      by_cases hq : (c == '?') = true
      · have hcq : c = '?' := by simpa using hq
        have hcont : (c :: h).contains '?' = true := by
          rw [List.contains_cons]
          subst hcq
          simp
        rw [if_pos hq, if_pos hq]
        simp only [Bool.false_eq_true, if_false, if_true]
        rw [ih2, List.countP_cons, hcont]
        constructor
        · rw [if_pos rfl]
          omega
        · simp only [List.tail_cons]
      · have hcont : (c :: h).contains '?' = h.contains '?' := by
          rw [List.contains_cons]
          have hnq : ('?' == c) = false := by
            cases hbc : ('?' == c)
            · rfl
            · exfalso
              have hcq : '?' = c := by simpa using hbc
              exact hq (by simp [← hcq])
          rw [hnq]
          simp
        rw [if_neg hq, if_neg hq, ih1, ih2]
        constructor
        · rw [List.countP_cons, List.countP_cons, hcont]
        · simp only [List.tail_cons]

theorem qscan_filter (l : List Char) :
    ∀ b, qscan b (l.filter isQS) = qscan b l := by
  induction l with
  | nil => intro b; rfl
  | cons c cs ih =>
    intro b
    rw [List.filter_cons]
    by_cases hqs : isQS c = true
    · rw [if_pos hqs, qscan_cons, qscan_cons]
      by_cases hsep : isSepC c = true
      · rw [if_pos hsep, if_pos hsep, ih]
      · rw [if_neg hsep, if_neg hsep]
        by_cases hq : (c == '?') = true
        · rw [if_pos hq, if_pos hq]
          cases b
          · simp only [Bool.false_eq_true, if_false]
            rw [ih]
          · simp only [if_true]
            rw [ih]
        · rw [if_neg hq, if_neg hq, ih]
    · rw [if_neg hqs]
      have hsep : isSepC c = false := by
        revert hqs
        unfold isQS
        cases isSepC c <;> simp
      have hq : (c == '?') = false := by
        revert hqs
        unfold isQS
        cases hc : (c == '?') <;> simp
      rw [qscan_cons, hsep, hq]
      simp only [Bool.false_eq_true, if_false]
      exact ih b

theorem qscan_append (ys : List Char) :
    ∀ (xs : List Char) (b : Bool),
      qscan b (xs ++ ys) = qscan b xs + qscan (qstate b xs) ys := by
  intro xs
  induction xs with
  | nil => intro b; simp [qscan, qstate]
  | cons c cs ih =>
    intro b
    rw [List.cons_append, qscan_cons, qscan_cons, qstate_cons]
    by_cases hsep : isSepC c = true
    · rw [if_pos hsep, if_pos hsep, if_pos hsep, ih]
    · rw [if_neg hsep, if_neg hsep, if_neg hsep]
      by_cases hq : (c == '?') = true
      · rw [if_pos hq, if_pos hq, if_pos hq]
        cases b
        · simp only [Bool.false_eq_true, if_false]
          rw [ih]
          omega
        · simp only [if_true]
          rw [ih]
      · rw [if_neg hq, if_neg hq, if_neg hq, ih]

theorem qscan_of_no_q {l : List Char} (h : ∀ c ∈ l, (c == '?') = false) :
    ∀ b, qscan b l = 0 := by
  induction l with
  | nil => intro b; rfl
  | cons c cs ih =>
    intro b
    have hc := h c (List.mem_cons_self c cs)
    have hcs : ∀ x ∈ cs, (x == '?') = false := fun x hx => h x (List.mem_cons_of_mem c hx)
    rw [qscan_cons, hc]
    by_cases hsep : isSepC c = true
    · rw [if_pos hsep]
      exact ih hcs false
    · rw [if_neg hsep]
      simp only [Bool.false_eq_true, if_false]
      exact ih hcs b

theorem qscan_true_of_no_sep {l : List Char} (h : ∀ c ∈ l, isSepC c = false) :
    qscan true l = 0 := by
  induction l with
  | nil => rfl
  | cons c cs ih =>
    have hc := h c (List.mem_cons_self c cs)
    have hcs : ∀ x ∈ cs, isSepC x = false := fun x hx => h x (List.mem_cons_of_mem c hx)
    rw [qscan_cons, hc]
    simp only [Bool.false_eq_true, if_false]
    by_cases hq : (c == '?') = true
    · rw [if_pos hq]
      simp only [if_true]
      exact ih hcs
    · rw [if_neg hq]
      exact ih hcs

theorem qscan_le_one_of_no_sep {l : List Char} (h : ∀ c ∈ l, isSepC c = false) :
    ∀ b, qscan b l ≤ 1 := by
  induction l with
  | nil => intro b; exact Nat.zero_le 1
  | cons c cs ih =>
    intro b
    have hc := h c (List.mem_cons_self c cs)
    have hcs : ∀ x ∈ cs, isSepC x = false := fun x hx => h x (List.mem_cons_of_mem c hx)
    rw [qscan_cons, hc]
    simp only [Bool.false_eq_true, if_false]
    by_cases hq : (c == '?') = true
    · rw [if_pos hq]
      cases b
      · simp only [Bool.false_eq_true, if_false]
        have := qscan_true_of_no_sep hcs
        omega
      · simp only [if_true]
        have := qscan_true_of_no_sep hcs
        omega
    · rw [if_neg hq]
      exact ih hcs b

theorem contains_iff_mem {l : List Char} {a : Char} : l.contains a = true ↔ a ∈ l := by
  induction l with
  | nil => simp
  | cons c cs ih =>
    rw [List.contains_cons]
    constructor
    · intro h
      rcases Bool.or_eq_true_iff.mp h with h1 | h2
      · exact (beq_iff_eq.mp h1) ▸ List.mem_cons_self c cs
      · exact List.mem_cons_of_mem c (ih.mp h2)
    · intro h
      rcases List.mem_cons.mp h with rfl | hm
      · simp
      · rw [ih.mpr hm]
        simp

theorem no_q_of_contains_false {l : List Char} (h : l.contains '?' = false) :
    ∀ c ∈ l, (c == '?') = false := by
  intro c hc
  cases hb : (c == '?')
  · rfl
  · exfalso
    have hcq : c = '?' := beq_iff_eq.mp hb
    subst hcq
    rw [contains_iff_mem.mpr hc] at h
    cases h

theorem contains_false_of_no_mem {l : List Char} (h : '?' ∉ l) : l.contains '?' = false := by
  cases hb : l.contains '?'
  · rfl
  · exact absurd (contains_iff_mem.mp hb) h

theorem listStarts_subset : ∀ {n h : List Char}, listStarts n h = true → ∀ c ∈ n, c ∈ h := by
  intro n
  induction n with
  | nil => intro h _ c hc; cases hc
  | cons a n' ih =>
    intro h hs c hc
    cases h with
    | nil => cases hs
    | cons b h' =>
      unfold listStarts at hs
      rw [Bool.and_eq_true] at hs
      have hab : a = b := beq_iff_eq.mp hs.1
      rcases List.mem_cons.mp hc with rfl | hm
      · exact hab ▸ List.mem_cons_self b h'
      · exact List.mem_cons_of_mem b (ih hs.2 c hm)

theorem containsStr_subset : ∀ {h n : List Char}, containsStr n h = true → ∀ c ∈ n, c ∈ h := by
  intro h
  induction h with
  | nil =>
    intro n hc c hcn
    cases n with
    | nil => cases hcn
    | cons a n' => cases hc
  | cons b h' ih =>
    intro n hc c hcn
    unfold containsStr at hc
    rcases Bool.or_eq_true_iff.mp hc with h1 | h2
    · exact listStarts_subset h1 c hcn
    · exact List.mem_cons_of_mem b (ih h2 c hcn)

theorem isSepC_cases {c : Char} (h : isSepC c = true) : c = '.' ∨ c = '!' ∨ c = '।' := by
  unfold isSepC at h
  rcases Bool.or_eq_true_iff.mp h with h1 | h2
  · rcases Bool.or_eq_true_iff.mp h1 with h3 | h4
    · exact Or.inl (beq_iff_eq.mp h3)
    · exact Or.inr (Or.inl (beq_iff_eq.mp h4))
  · exact Or.inr (Or.inr (beq_iff_eq.mp h2))

theorem mem_sepChars3_props {c : Char} (h : c ∈ sepChars3) :
    isSepC c = true ∧ (c == '?') = false ∧ c.isWhitespace = false := by
  have hc : c = '.' ∨ c = '!' ∨ c = '।' := by
    simpa [sepChars3] using h
  rcases hc with rfl | rfl | rfl
  · exact ⟨by decide, by decide, by decide⟩
  · exact ⟨by decide, by decide, by decide⟩
  · exact ⟨by decide, by decide, by decide⟩

theorem isSepC_props {c : Char} (h : isSepC c = true) :
    (c == '?') = false ∧ c.isWhitespace = false := by
  rcases isSepC_cases h with rfl | rfl | rfl
  · exact ⟨by decide, by decide⟩
  · exact ⟨by decide, by decide⟩
  · exact ⟨by decide, by decide⟩

theorem isQS_ws_false {c : Char} (h : c.isWhitespace = true) : isQS c = false := by
  cases hb : isQS c
  · rfl
  · exfalso
    unfold isQS at hb
    rcases Bool.or_eq_true_iff.mp hb with h1 | h2
    · exact absurd h (by rw [(isSepC_props h1).2]; exact Bool.false_ne_true)
    · have : c = '?' := beq_iff_eq.mp h2
      subst this
      cases h

theorem isQS_of_sep {c : Char} (h : isSepC c = true) : isQS c = true := by
  unfold isQS
  rw [h]
  rfl

theorem filter_dropWhile_disj {p q : Char → Bool}
    (hpq : ∀ c, q c = true → p c = false) :
    ∀ l : List Char, (l.dropWhile q).filter p = l.filter p := by
  intro l
  induction l with
  | nil => rfl
  | cons c cs ih =>
    by_cases hq : q c = true
    · rw [List.dropWhile_cons_of_pos hq, ih, List.filter_cons, hpq c hq]
      simp
    · rw [List.dropWhile_cons_of_neg hq]

theorem filter_stripWhile_disj {p q : Char → Bool}
    (hpq : ∀ c, q c = true → p c = false) (l : List Char) :
    (stripWhile q l).filter p = l.filter p := by
  unfold stripWhile
  rw [List.filter_reverse, filter_dropWhile_disj hpq, List.filter_reverse,
    filter_dropWhile_disj hpq, List.reverse_reverse]

theorem collapseAux_cons (b : Bool) (c : Char) (cs : List Char) :
    collapseAux b (c :: cs)
      = if c.isWhitespace = true then
          (if b = true then collapseAux true cs else ' ' :: collapseAux true cs)
        else c :: collapseAux false cs := rfl

theorem filter_isQS_collapseAux :
    ∀ (l : List Char) (b : Bool), (collapseAux b l).filter isQS = l.filter isQS := by
  intro l
  induction l with
  | nil => intro b; rfl
  | cons c cs ih =>
    intro b
    rw [collapseAux_cons]
    by_cases hws : c.isWhitespace = true
    · rw [if_pos hws]
      have hnq : isQS c = false := isQS_ws_false hws
      have hsp : isQS ' ' = false := by decide
      cases b
      · simp only [Bool.false_eq_true, if_false]
        rw [List.filter_cons, hsp, List.filter_cons, hnq]
        simp only [Bool.false_eq_true, if_false]
        exact ih true
      · simp only [if_true]
        rw [List.filter_cons, hnq]
        simp only [Bool.false_eq_true, if_false]
        exact ih true
    · rw [if_neg hws, List.filter_cons, List.filter_cons, ih false]

theorem filter_isQS_of_all_ws {pend : List Char}
    (h : pend.all Char.isWhitespace = true) : pend.filter isQS = [] := by
  rw [List.filter_eq_nil_iff]
  intro a ha
  rw [isQS_ws_false (List.all_eq_true.mp h a ha)]
  exact Bool.false_ne_true

theorem fixSepAux_cons (pend : List Char) (aSep : Bool) (c : Char) (cs : List Char) :
    fixSepAux pend aSep (c :: cs)
      = if isSepC c = true then c :: ' ' :: fixSepAux [] true cs
        else if c.isWhitespace = true then
          (if aSep = true then fixSepAux pend true cs
           else fixSepAux (pend ++ [c]) false cs)
        else pend ++ c :: fixSepAux [] false cs := rfl

theorem filter_isQS_fixSepAux :
    ∀ (l pend : List Char) (aSep : Bool), pend.all Char.isWhitespace = true →
      (fixSepAux pend aSep l).filter isQS = l.filter isQS := by
  intro l
  induction l with
  | nil =>
    intro pend aSep hpend
    exact filter_isQS_of_all_ws hpend
  | cons c cs ih =>
    intro pend aSep hpend
    rw [fixSepAux_cons]
    by_cases hsep : isSepC c = true
    · rw [if_pos hsep]
      rw [List.filter_cons, isQS_of_sep hsep, List.filter_cons,
        show isQS ' ' = false from by decide]
      simp only [if_true, Bool.false_eq_true, if_false]
      rw [ih [] true rfl, List.filter_cons, isQS_of_sep hsep]
      simp only [if_true]
    · rw [if_neg hsep]
      by_cases hws : c.isWhitespace = true
      · rw [if_pos hws]
        have hnq : isQS c = false := isQS_ws_false hws
        have hrhs : (c :: cs).filter isQS = cs.filter isQS := by
          rw [List.filter_cons, hnq]
          simp
        cases aSep
        · simp only [Bool.false_eq_true, if_false]
          rw [ih (pend ++ [c]) false (by rw [List.all_append, hpend]; simpa using hws), hrhs]
        · simp only [if_true]
          rw [ih pend true hpend, hrhs]
      · rw [if_neg hws, List.filter_append, filter_isQS_of_all_ws hpend, List.nil_append,
          List.filter_cons, List.filter_cons, ih [] false rfl]

/-- Structure of `re.split` with a capturing group: the result is non-empty,
its first element is separator-free, and every element is either a
separator-free piece or a single separator character. -/
theorem splitKeepSeps_spec (l : List Char) :
    splitKeepSeps l ≠ []
    ∧ (∀ c ∈ (splitKeepSeps l).headI, isSepC c = false)
    ∧ ∀ p ∈ splitKeepSeps l,
        (∀ c ∈ p, isSepC c = false) ∨ ∃ s, p = [s] ∧ isSepC s = true := by
  induction l with
  | nil =>
    refine ⟨by simp [splitKeepSeps], ?_, ?_⟩
    · intro c hc
      simp [splitKeepSeps] at hc
    · intro p hp
      left
      intro c hc
      simp [splitKeepSeps] at hp
      subst hp
      cases hc
  | cons c cs ih =>
    obtain ⟨hne, hhead, hmem⟩ := ih
    obtain ⟨h, t, hS⟩ := List.exists_cons_of_ne_nil hne
    rw [hS] at hhead
    simp only [List.headI] at hhead
    have hstep : splitKeepSeps (c :: cs)
        = if isSepC c = true then [] :: [c] :: splitKeepSeps cs
          else (c :: (splitKeepSeps cs).headI) :: (splitKeepSeps cs).tail := rfl
    by_cases hsep : isSepC c = true
    · have hsplit : splitKeepSeps (c :: cs) = [] :: [c] :: splitKeepSeps cs := by
        rw [hstep, if_pos hsep]
      rw [hsplit]
      refine ⟨by simp, ?_, ?_⟩
      · intro x hx
        simp at hx
      · intro p hp
        rcases List.mem_cons.mp hp with rfl | hp'
        · left; intro x hx; cases hx
        · rcases List.mem_cons.mp hp' with rfl | hp''
          · exact Or.inr ⟨c, rfl, hsep⟩
          · exact hmem p hp''
    · have hsplit : splitKeepSeps (c :: cs) = (c :: h) :: t := by
        rw [hstep, if_neg hsep, hS]
        rfl
      rw [hsplit]
      refine ⟨by simp, ?_, ?_⟩
      · intro x hx
        simp only [List.headI] at hx
        rcases List.mem_cons.mp hx with rfl | hx'
        · exact Bool.not_eq_true _ ▸ (by revert hsep; cases isSepC x <;> simp)
        · exact hhead x hx'
      · intro p hp
        rcases List.mem_cons.mp hp with rfl | hp'
        · left
          intro x hx
          rcases List.mem_cons.mp hx with rfl | hx'
          · revert hsep; cases isSepC x <;> simp
          · exact hhead x hx'
        · exact hmem p (hS ▸ List.mem_cons_of_mem h hp')

theorem keptParts_one (p : List Char) (q : Nat) :
    keptParts [p] q
      = if (trimWs p).isEmpty then []
        else if (trimWs p).contains '?' then (if q < 2 then [trimWs p] else [])
        else [trimWs p] := rfl

theorem keptParts_two (p next : List Char) (rest2 : List (List Char)) (q : Nat) :
    keptParts (p :: next :: rest2) q
      = if (trimWs p).isEmpty then keptParts (next :: rest2) q
        else if (trimWs p).contains '?' then
          (if q < 2 then trimWs p :: keptParts (next :: rest2) (q + 1)
           else keptParts (next :: rest2) q)
        else
          (if containsStr next sepChars3 then trimWs p :: next :: keptParts rest2 q
           else trimWs p :: keptParts (next :: rest2) q) := rfl

theorem trim_sep_free_of_inv {p : List Char}
    (hp : (∀ c ∈ p, isSepC c = false) ∨ ∃ s, p = [s] ∧ isSepC s = true)
    (hcq : (trimWs p).contains '?' = true) : ∀ c ∈ trimWs p, isSepC c = false := by
  rcases hp with hl | ⟨s, rfl, hsep⟩
  · exact fun c hc => hl c (mem_stripWhile_subset hc)
  · exfalso
    have htr : trimWs [s] = [s] := by
      refine stripWhile_of_all_neg ?_
      simp [(isSepC_props hsep).2]
    rw [htr] at hcq
    have h1 : '?' = s := List.mem_singleton.mp (contains_iff_mem.mp hcq)
    rw [← h1] at hsep
    exact absurd hsep (by decide)

theorem keptParts_qscan_bound :
    ∀ (parts : List (List Char)) (q : Nat) (b : Bool),
      (∀ p ∈ parts, (∀ c ∈ p, isSepC c = false) ∨ ∃ s, p = [s] ∧ isSepC s = true) →
      q ≤ 2 → qscan b ((keptParts parts q).flatten) ≤ 2 - q
  | [], q, b, _, _ => by
    rw [show keptParts [] q = [] from rfl]
    exact Nat.zero_le _
  | [p], q, b, hinv, hq => by
    rw [keptParts_one]
    by_cases hemp : (trimWs p).isEmpty = true
    · rw [if_pos hemp]
      exact Nat.zero_le _
    · rw [if_neg hemp]
      by_cases hcq : (trimWs p).contains '?' = true
      · rw [if_pos hcq]
        by_cases hq2 : q < 2
        · rw [if_pos hq2]
          simp only [List.flatten_cons, List.flatten_nil, List.append_nil]
          have h1 := qscan_le_one_of_no_sep
            (trim_sep_free_of_inv (hinv p (List.mem_cons_self p [])) hcq) b
          omega
        · rw [if_neg hq2]
          exact Nat.zero_le _
      · rw [if_neg hcq]
        simp only [List.flatten_cons, List.flatten_nil, List.append_nil]
        have hnq : (trimWs p).contains '?' = false := by
          revert hcq; cases (trimWs p).contains '?' <;> simp
        rw [qscan_of_no_q (no_q_of_contains_false hnq) b]
        exact Nat.zero_le _
  | p :: next :: rest2, q, b, hinv, hq => by
    have hinv1 : ∀ x ∈ next :: rest2,
        (∀ c ∈ x, isSepC c = false) ∨ ∃ s, x = [s] ∧ isSepC s = true :=
      fun x hx => hinv x (List.mem_cons_of_mem p hx)
    have hinv2 : ∀ x ∈ rest2,
        (∀ c ∈ x, isSepC c = false) ∨ ∃ s, x = [s] ∧ isSepC s = true :=
      fun x hx => hinv1 x (List.mem_cons_of_mem next hx)
    rw [keptParts_two]
    by_cases hemp : (trimWs p).isEmpty = true
    · rw [if_pos hemp]
      exact keptParts_qscan_bound (next :: rest2) q b hinv1 hq
    · rw [if_neg hemp]
      by_cases hcq : (trimWs p).contains '?' = true
      · rw [if_pos hcq]
        by_cases hq2 : q < 2
        · rw [if_pos hq2, List.flatten_cons, qscan_append]
          have h1 := qscan_le_one_of_no_sep
            (trim_sep_free_of_inv (hinv p (List.mem_cons_self p (next :: rest2))) hcq) b
          have h2 := keptParts_qscan_bound (next :: rest2) (q + 1)
            (qstate b (trimWs p)) hinv1 (by omega)
          omega
        · rw [if_neg hq2]
          exact keptParts_qscan_bound (next :: rest2) q b hinv1 hq
      · rw [if_neg hcq]
        have hnq : (trimWs p).contains '?' = false := by
          revert hcq; cases (trimWs p).contains '?' <;> simp
        by_cases hnx : containsStr next sepChars3 = true
        · rw [if_pos hnx, List.flatten_cons, List.flatten_cons, qscan_append, qscan_append]
          have e1 : qscan b (trimWs p) = 0 := qscan_of_no_q (no_q_of_contains_false hnq) b
          have e2 : qscan (qstate b (trimWs p)) next = 0 :=
            qscan_of_no_q
              (fun c hc => (mem_sepChars3_props (containsStr_subset hnx c hc)).2.1) _
          have h3 := keptParts_qscan_bound rest2 q
            (qstate (qstate b (trimWs p)) next) hinv2 hq
          omega
        · rw [if_neg hnx, List.flatten_cons, qscan_append]
          have e1 : qscan b (trimWs p) = 0 := qscan_of_no_q (no_q_of_contains_false hnq) b
          have h3 := keptParts_qscan_bound (next :: rest2) q
            (qstate b (trimWs p)) hinv1 hq
          omega

theorem trim_next_no_q {next : List Char} (hnx : containsStr next sepChars3 = true) :
    (trimWs next).contains '?' = false := by
  refine contains_false_of_no_mem ?_
  intro hm
  have h1 := mem_stripWhile_subset hm
  have h2 := (mem_sepChars3_props (containsStr_subset hnx '?' h1)).2.1
  exact absurd h2 (by decide)

theorem keptParts_filter_take :
    ∀ (parts : List (List Char)) (q : Nat), q ≤ 2 →
      (keptParts parts q).filter (fun x => x.contains '?')
        = ((parts.map trimWs).filter (fun x => x.contains '?')).take (2 - q)
  | [], q, _ => by
    rw [show keptParts [] q = [] from rfl]
    simp
  | [p], q, hq => by
    rw [keptParts_one]
    simp only [List.map_cons, List.map_nil, List.filter_cons, List.filter_nil]
    by_cases hemp : (trimWs p).isEmpty = true
    · rw [if_pos hemp, List.isEmpty_iff.mp hemp]
      simp
    · rw [if_neg hemp]
      by_cases hcq : (trimWs p).contains '?' = true
      · rw [if_pos hcq, hcq]
        by_cases hq2 : q < 2
        · rw [if_pos hq2]
          have h21 : 2 - q = (1 - q) + 1 := by omega
          rw [h21, if_pos rfl, List.take_succ_cons, List.filter_cons, hcq, if_pos rfl]
          simp
        · rw [if_neg hq2]
          have h20 : 2 - q = 0 := by omega
          rw [h20, if_pos rfl, List.take_zero]
          rfl
      · have hnq : (trimWs p).contains '?' = false := by
          revert hcq; cases (trimWs p).contains '?' <;> simp
        rw [if_neg hcq, hnq, List.filter_cons, hnq]
        simp
  | p :: next :: rest2, q, hq => by
    rw [keptParts_two]
    by_cases hemp : (trimWs p).isEmpty = true
    · have hR : ((p :: next :: rest2).map trimWs).filter (fun x => x.contains '?')
          = ((next :: rest2).map trimWs).filter (fun x => x.contains '?') := by
        rw [List.map_cons, List.filter_cons, List.isEmpty_iff.mp hemp]
        rfl
      rw [if_pos hemp, hR]
      exact keptParts_filter_take (next :: rest2) q hq
    · rw [if_neg hemp]
      by_cases hcq : (trimWs p).contains '?' = true
      · have hR : ((p :: next :: rest2).map trimWs).filter (fun x => x.contains '?')
            = trimWs p :: ((next :: rest2).map trimWs).filter (fun x => x.contains '?') := by
          rw [List.map_cons, List.filter_cons, hcq, if_pos rfl]
        rw [if_pos hcq, hR]
        by_cases hq2 : q < 2
        · have h21 : 2 - q = (1 - q) + 1 := by omega
          have h22 : 2 - (q + 1) = 1 - q := by omega
          rw [if_pos hq2, List.filter_cons, hcq, if_pos rfl, h21, List.take_succ_cons,
            keptParts_filter_take (next :: rest2) (q + 1) (by omega), h22]
        · have h20 : 2 - q = 0 := by omega
          rw [if_neg hq2, h20, List.take_zero]
          have hIH := keptParts_filter_take (next :: rest2) q hq
          rw [h20, List.take_zero] at hIH
          exact hIH
      · have hnq : (trimWs p).contains '?' = false := by
          revert hcq; cases (trimWs p).contains '?' <;> simp
        have hR : ((p :: next :: rest2).map trimWs).filter (fun x => x.contains '?')
            = ((next :: rest2).map trimWs).filter (fun x => x.contains '?') := by
          rw [List.map_cons, List.filter_cons, hnq]
          simp
        rw [if_neg hcq, hR]
        by_cases hnx : containsStr next sepChars3 = true
        · have hnn : next.contains '?' = false := by
            refine contains_false_of_no_mem ?_
            intro hm
            have h2 := (mem_sepChars3_props (containsStr_subset hnx '?' hm)).2.1
            exact absurd h2 (by decide)
          have hR2 : ((next :: rest2).map trimWs).filter (fun x => x.contains '?')
              = (rest2.map trimWs).filter (fun x => x.contains '?') := by
            rw [List.map_cons, List.filter_cons, trim_next_no_q hnx]
            simp
          rw [if_pos hnx, hR2, List.filter_cons, hnq]
          simp only [Bool.false_eq_true, if_false]
          rw [List.filter_cons, hnn]
          simp only [Bool.false_eq_true, if_false]
          exact keptParts_filter_take rest2 q hq
        · rw [if_neg hnx, List.filter_cons, hnq]
          simp only [Bool.false_eq_true, if_false]
          exact keptParts_filter_take (next :: rest2) q hq

theorem keptParts_keeps_statements :
    ∀ (parts : List (List Char)) (q : Nat),
      List.Sublist
        ((parts.map trimWs).filter (fun x => !x.isEmpty && !x.contains '?'))
        (keptParts parts q)
  | [], q => by
    rw [show keptParts [] q = [] from rfl]
    exact List.Sublist.refl []
  | [p], q => by
    rw [keptParts_one]
    simp only [List.map_cons, List.map_nil, List.filter_cons, List.filter_nil]
    by_cases hemp : (trimWs p).isEmpty = true
    · rw [if_pos hemp, hemp]
      simp
    · rw [if_neg hemp]
      by_cases hcq : (trimWs p).contains '?' = true
      · rw [if_pos hcq, hcq]
        simp only [Bool.not_true, Bool.and_false, Bool.false_eq_true, if_false]
        exact List.nil_sublist _
      · have hnq : (trimWs p).contains '?' = false := by
          revert hcq; cases (trimWs p).contains '?' <;> simp
        rw [if_neg hcq]
        have hemp' : (trimWs p).isEmpty = false := by
          revert hemp; cases (trimWs p).isEmpty <;> simp
        rw [hemp', hnq]
        simp only [Bool.not_false, Bool.and_true, if_true]
        exact List.Sublist.refl _
  | p :: next :: rest2, q => by
    rw [keptParts_two]
    by_cases hemp : (trimWs p).isEmpty = true
    · have hF : ((p :: next :: rest2).map trimWs).filter
            (fun x => !x.isEmpty && !x.contains '?')
          = ((next :: rest2).map trimWs).filter (fun x => !x.isEmpty && !x.contains '?') := by
        rw [List.map_cons, List.filter_cons, hemp]
        simp only [Bool.not_true, Bool.false_and, Bool.false_eq_true, if_false]
      rw [if_pos hemp, hF]
      exact keptParts_keeps_statements (next :: rest2) q
    · have hemp' : (trimWs p).isEmpty = false := by
        revert hemp; cases (trimWs p).isEmpty <;> simp
      rw [if_neg hemp]
      by_cases hcq : (trimWs p).contains '?' = true
      · have hF : ((p :: next :: rest2).map trimWs).filter
              (fun x => !x.isEmpty && !x.contains '?')
            = ((next :: rest2).map trimWs).filter
                (fun x => !x.isEmpty && !x.contains '?') := by
          rw [List.map_cons, List.filter_cons, hcq]
          simp only [Bool.not_true, Bool.and_false, Bool.false_eq_true, if_false]
        rw [if_pos hcq, hF]
        by_cases hq2 : q < 2
        · rw [if_pos hq2]
          exact (keptParts_keeps_statements (next :: rest2) (q + 1)).cons _
        · rw [if_neg hq2]
          exact keptParts_keeps_statements (next :: rest2) q
      · have hnq : (trimWs p).contains '?' = false := by
          revert hcq; cases (trimWs p).contains '?' <;> simp
        have hF : ((p :: next :: rest2).map trimWs).filter
              (fun x => !x.isEmpty && !x.contains '?')
            = trimWs p :: ((next :: rest2).map trimWs).filter
                (fun x => !x.isEmpty && !x.contains '?') := by
          rw [List.map_cons, List.filter_cons, hemp', hnq]
          simp only [Bool.not_false, Bool.true_and, if_true]
        rw [if_neg hcq, hF]
        by_cases hnx : containsStr next sepChars3 = true
        · by_cases hne : next = []
          · subst hne
            have hF2 : (([] :: rest2).map trimWs).filter
                  (fun x => !x.isEmpty && !x.contains '?')
                = (rest2.map trimWs).filter (fun x => !x.isEmpty && !x.contains '?') := by
              rw [List.map_cons, List.filter_cons, show trimWs ([] : List Char) = [] from rfl]
              simp only [List.isEmpty_nil, Bool.not_true, Bool.false_and,
                Bool.false_eq_true, if_false]
            rw [if_pos hnx, hF2]
            exact ((keptParts_keeps_statements rest2 q).cons _).cons₂ _
          · have hall : next.all (fun c => !c.isWhitespace) = true := by
              rw [List.all_eq_true]
              intro c hc
              simp [(mem_sepChars3_props (containsStr_subset hnx c hc)).2.2]
            have htr : trimWs next = next := stripWhile_of_all_neg hall
            have hnemp : next.isEmpty = false := by
              cases next with
              | nil => exact absurd rfl hne
              | cons a l => rfl
            have hnn : next.contains '?' = false := by
              refine contains_false_of_no_mem ?_
              intro hm
              have h2 := (mem_sepChars3_props (containsStr_subset hnx '?' hm)).2.1
              exact absurd h2 (by decide)
            have hF2 : ((next :: rest2).map trimWs).filter
                  (fun x => !x.isEmpty && !x.contains '?')
                = next :: (rest2.map trimWs).filter
                    (fun x => !x.isEmpty && !x.contains '?') := by
              rw [List.map_cons, List.filter_cons, htr, hnemp, hnn]
              simp only [Bool.not_false, Bool.true_and, if_true]
            rw [if_pos hnx, hF2]
            exact ((keptParts_keeps_statements rest2 q).cons₂ _).cons₂ _
        · rw [if_neg hnx]
          exact (keptParts_keeps_statements (next :: rest2) q).cons₂ _

/-- Claim C10 (confirmed): in the output of `_limit_questions`, at most two of
the sentence segments (split on `'.'`, `'!'`, `'।'`) contain a question mark;
the kept question-bearing parts are exactly the first two of the input, and
the non-question parts are all retained in their original order. -/
theorem limit_questions_spec (text : List Char) :
    countQSegs (limitQuestions text) ≤ 2
    ∧ (keptParts (splitKeepSeps text) 0).filter (fun x => x.contains '?')
        = (((splitKeepSeps text).map trimWs).filter (fun x => x.contains '?')).take 2
    ∧ List.Sublist
        (((splitKeepSeps text).map trimWs).filter (fun x => !x.isEmpty && !x.contains '?'))
        (keptParts (splitKeepSeps text) 0) := by
  refine ⟨?_, keptParts_filter_take (splitKeepSeps text) 0 (by omega),
    keptParts_keeps_statements (splitKeepSeps text) 0⟩
  have h1 : countQSegs (limitQuestions text) = qscan false (limitQuestions text) := by
    unfold countQSegs
    exact (qscan_splitSegs (limitQuestions text)).1.symm
  have hfq : ∀ l : List Char, (trimWs l).filter isQS = l.filter isQS :=
    fun l => filter_stripWhile_disj (fun c hc => isQS_ws_false hc) l
  have h2 : qscan false (limitQuestions text)
      = qscan false ((keptParts (splitKeepSeps text) 0).flatten) := by
    unfold limitQuestions fixSepSpacing collapseWs
    rw [← qscan_filter _ false, hfq,
      filter_isQS_fixSepAux _ [] false rfl, filter_isQS_collapseAux, qscan_filter]
  rw [h1, h2]
  exact keptParts_qscan_bound (splitKeepSeps text) 0 false
    (splitKeepSeps_spec text).2.2 (by omega)

end TamilVoiceGateway
